import Mathlib

/-!
Shallow embedding of the simulation core of the repository:
the particle motion state machine (moonstaff/src/particles.rs),
the cellular-automaton heat field (src/fire.rs) and the
fixed-timestep scheduler of the fire demo (src/main.rs).

Machine floating-point values (f32) are modelled as exact rationals.
The square root used by `Vec3::mag`/`Vec3::normalized` has no exact
rational counterpart, so the functions that need it take an explicit
`sqrt : ℚ → ℚ` parameter; theorems that depend on its behaviour
constrain it at exactly the values where the source evaluates it.
-/

namespace Art

/-- Three-component vector (sf::Vec3 with f32 components, modelled over ℚ). -/
structure Vec3 where
  x : ℚ
  y : ℚ
  z : ℚ
deriving DecidableEq, Repr

namespace Vec3

instance : Add Vec3 := ⟨fun a b => ⟨a.x + b.x, a.y + b.y, a.z + b.z⟩⟩
instance : Sub Vec3 := ⟨fun a b => ⟨a.x - b.x, a.y - b.y, a.z - b.z⟩⟩
instance : Neg Vec3 := ⟨fun a => ⟨-a.x, -a.y, -a.z⟩⟩
instance : SMul ℚ Vec3 := ⟨fun c a => ⟨c * a.x, c * a.y, c * a.z⟩⟩

theorem add_def (a b : Vec3) : a + b = ⟨a.x + b.x, a.y + b.y, a.z + b.z⟩ := rfl
theorem sub_def (a b : Vec3) : a - b = ⟨a.x - b.x, a.y - b.y, a.z - b.z⟩ := rfl
theorem neg_def (a : Vec3) : -a = ⟨-a.x, -a.y, -a.z⟩ := rfl
theorem smul_def (c : ℚ) (a : Vec3) : c • a = ⟨c * a.x, c * a.y, c * a.z⟩ := rfl

/-- Dot product of two vectors. -/
def dot (a b : Vec3) : ℚ := a.x * b.x + a.y * b.y + a.z * b.z

/-- Squared magnitude (Vec3::mag_sq). -/
def mag_sq (a : Vec3) : ℚ := dot a a

/-- Vec3::normalized, i.e. the vector divided by its magnitude.
The magnitude is `sqrt mag_sq`, supplied through the `sqrt` parameter. -/
def normalized (sqrt : ℚ → ℚ) (a : Vec3) : Vec3 := (1 / sqrt (mag_sq a)) • a

end Vec3

/-! Constants from moonstaff/src/particles.rs, as exact rationals. -/

/-- Staff position the particles gravitate towards (constant TARGET_POS). -/
def TARGET_POS : Vec3 := ⟨12096 / 1000000, 95921 / 1000000, -1 / 10⟩

def GRAVITY_STRENGTH : ℚ := 10000

def MAX_SPEED : ℚ := 10

def ORBIT_DISTANCE : ℚ := 1 / 4

def ORBIT_TIME : ℚ := 1 / 2

def ORBIT_PATH_SIZE : ℚ := 1 / 20

/-- sf::LineVertex: a trail sample (position and line width). -/
structure LineVertex where
  position : Vec3
  width : ℚ
deriving DecidableEq, Repr

/-- The Bézier end-of-path data (struct EndPath). -/
structure EndPath where
  start : Vec3
  control1 : Vec3
  control2 : Vec3
  t : ℚ
deriving DecidableEq, Repr

/-- A particle (struct Particle).  The GPU-side `trail_strip` buffer is
render plumbing and is not modelled; the deque `trail_points` is modelled
as a list whose head is the front (newest sample) and whose last element
is the back (oldest sample).  The Rust field `end` is named `endPath`
here because `end` is reserved in Lean. -/
structure Particle where
  position : Vec3
  velocity : Vec3
  target : Vec3
  light_color : ℚ × ℚ × ℚ
  trail_width : ℚ
  trail_length : ℕ
  trail_points : List LineVertex
  endPath : Option EndPath
deriving DecidableEq, Repr

namespace Particle

/-- Particle::point_to_line_vertex: a line vertex at `p` whose width is
modulated by the z coordinate to fake depth. -/
def point_to_line_vertex (p : Vec3) (base_width : ℚ) : LineVertex :=
  { position := p, width := base_width / max 1 ((p.z + 2) / 2) }

/-- Particle::tick: apply gravity, move the particle, update the trail.
Deque operations: push_front is list cons, pop_back is dropLast.
The trailing `update_trail` call in the source only copies the trail to
the GPU strip and is not modelled. -/
def tick (sqrt : ℚ → ℚ) (p : Particle) (dt : ℚ) : Particle :=
  match p.endPath with
  | some e =>
    if e.t < 1 then
      -- end.t is incremented in place, then used by the lerps below
      let t1 := e.t + dt / ORBIT_TIME
      let lerp := fun (a b : Vec3) => a + t1 • (b - a)
      let pos := lerp
        (lerp (lerp e.start e.control1) (lerp e.control1 e.control2))
        (lerp (lerp e.control1 e.control2) (lerp e.control2 TARGET_POS))
      { p with
        position := pos
        trail_points :=
          { position := pos, width := p.trail_width * max (1 - t1 ^ 4) (1 / 20) }
            :: p.trail_points.dropLast
        endPath := some { e with t := t1 } }
    else
      -- reached the end: pop two points per step until the trail is gone
      { p with trail_points := p.trail_points.dropLast.dropLast }
  | none =>
    let dist := p.position - p.target
    let dist_sq := dist.mag_sq
    if dist_sq > ORBIT_DISTANCE ^ 2 then
      -- falling: gravity toward the target, clamped speed, Euler step
      let grav_accel := GRAVITY_STRENGTH / dist_sq
      let v1 := p.velocity - (dt ^ 2 * grav_accel) • Vec3.normalized sqrt dist
      let speed := sqrt v1.mag_sq
      let v2 := if speed > MAX_SPEED then (MAX_SPEED / speed) • v1 else v1
      let pos := p.position + dt • v2
      let trail0 := if p.trail_points.length ≥ p.trail_length
        then p.trail_points.dropLast else p.trail_points
      { p with
        velocity := v2
        position := pos
        trail_points := point_to_line_vertex pos p.trail_width :: trail0 }
    else
      -- reached the end zone: generate the Bézier path to the end
      let vel_scaled := ORBIT_PATH_SIZE • p.velocity
      let control1 := p.position + vel_scaled
      let dir_to_target := TARGET_POS - control1
      let vel_turned : Vec3 := ⟨-vel_scaled.y, vel_scaled.x, 0⟩
      let c2_offset := if dir_to_target.dot vel_turned > 0 then vel_turned else -vel_turned
      let control2 := control1 + c2_offset
      { p with
        endPath := some { start := p.position, control1 := control1,
                          control2 := control2, t := 0 } }

/-- Iterated ticks with the given list of timesteps. -/
def ticks (sqrt : ℚ → ℚ) (p : Particle) (dts : List ℚ) : Particle :=
  dts.foldl (fun q d => tick sqrt q d) p

/-- Particle::remove_completed: retain the particles whose trail is
nonempty and return the new collection together with the number removed. -/
def remove_completed (particles : List Particle) : List Particle × ℕ :=
  let retained := particles.filter fun p => !p.trail_points.isEmpty
  (retained, particles.length - retained.length)

end Particle

/-! Embedding of the heat field (src/fire.rs).  Heat values (f32) are
modelled as rationals.  The random draws of `propagate` are passed in
explicitly, one wind offset and one cooling amount per visited cell, as
functions of the visit index.  A Rust panic (an out-of-bounds index or
the usize underflow in `new`) is modelled as `none`. -/

/-- struct Fire: the heat field grid, row-major, index = y*width + x. -/
structure Fire where
  width : ℕ
  height : ℕ
  cooling_rate : ℚ
  heat_buf : List ℚ
deriving DecidableEq, Repr

namespace Fire

/-- Fire::new: allocate a zeroed grid and set the bottom row to full heat.
The source slices `heat_buf[(cell_count - width)..cell_count]`; when
`height = 0` and `width > 0` the usize subtraction underflows and the
construction panics (`none`). -/
def new (width height : ℕ) (cooling_rate : ℚ) : Option Fire :=
  let cell_count := width * height
  if width ≤ cell_count then
    some { width := width, height := height, cooling_rate := cooling_rate,
           heat_buf := List.replicate (cell_count - width) 0 ++ List.replicate width 1 }
  else
    none

/-- The iteration domain of `propagate`: iproduct!(0..width, 1..height),
column `x` in the outer loop, row `y` in the inner loop. -/
def gridPairs (width height : ℕ) : List (ℕ × ℕ) :=
  (List.range width).flatMap fun x => (List.range (height - 1)).map fun i => (x, i + 1)

/-- One iteration of the `propagate` loop body for source cell `xy`,
given that cell's wind and cooling draws.  The read of the source cell
and the write of the target cell both panic when out of bounds in the
source; the combined bounds guard models those panics as `none`. -/
def propStep (width : ℕ) (buf : List ℚ) (xy : ℕ × ℕ) (wind : ℤ) (cooling : ℚ) :
    Option (List ℚ) :=
  let source_idx := xy.2 * width + xy.1
  -- (above as isize + wind).max(0) as usize: Int.toNat clamps negatives to 0
  let target_idx := (((source_idx - width : ℕ) : ℤ) + wind).toNat
  if source_idx < buf.length ∧ target_idx < buf.length then
    some (buf.set target_idx (max (buf.getD source_idx 0 - cooling) 0))
  else none

/-- The `propagate` loop over a list of source cells, threading the visit
index used to look up the random draws. -/
def propagateAux (width : ℕ) (windDraw : ℕ → ℤ) (coolDraw : ℕ → ℚ) :
    List (ℕ × ℕ) → ℕ → List ℚ → Option (List ℚ)
  | [], _, buf => some buf
  | xy :: rest, i, buf =>
    (propStep width buf xy (windDraw i) (coolDraw i)).bind
      (propagateAux width windDraw coolDraw rest (i + 1))

/-- Fire::propagate with the random draws made explicit. -/
def propagate (f : Fire) (windDraw : ℕ → ℤ) (coolDraw : ℕ → ℚ) : Option Fire :=
  (propagateAux f.width windDraw coolDraw (gridPairs f.width f.height) 0 f.heat_buf).map
    fun buf => { f with heat_buf := buf }

/-- A sequence of `propagate` calls, each with its own draw functions. -/
def propagateSeq : Fire → List ((ℕ → ℤ) × (ℕ → ℚ)) → Option Fire
  | f, [] => some f
  | f, r :: rest => (f.propagate r.1 r.2).bind fun f1 => propagateSeq f1 rest

/-- Admissible wind draws: rng.gen_range(-1..=2). -/
def windAdmissible (windDraw : ℕ → ℤ) : Prop :=
  ∀ i, -1 ≤ windDraw i ∧ windDraw i ≤ 2

/-- Admissible cooling draws: uniform in
cooling_rate - 0.9*cooling_rate ..= cooling_rate + 0.9*cooling_rate. -/
def coolAdmissible (cooling_rate : ℚ) (coolDraw : ℕ → ℚ) : Prop :=
  ∀ i, cooling_rate - 9 / 10 * cooling_rate ≤ coolDraw i ∧
       coolDraw i ≤ cooling_rate + 9 / 10 * cooling_rate

end Fire

/-! Embedding of the fixed-timestep scheduler of the fire demo
(src/main.rs, the loop limited to 4 steps per frame). -/

/-- The per-frame simulation loop with at most `n` iterations left:
while the accumulated time is at least `fire_dt`, run one `propagate`
step and subtract `fire_dt`.  Returns the number of steps executed and
the leftover accumulated time. -/
def simLoop (fire_dt : ℚ) : ℕ → ℚ → ℕ × ℚ
  | 0, time_in_frame => (0, time_in_frame)
  | n + 1, time_in_frame =>
    if time_in_frame < fire_dt then (0, time_in_frame)
    else
      let rest := simLoop fire_dt n (time_in_frame - fire_dt)
      (rest.1 + 1, rest.2)

/-- One frame of the fire scheduler: `for _ in 0..4 { ... }`. -/
def frameSteps (fire_dt time_in_frame : ℚ) : ℕ × ℚ :=
  simLoop fire_dt 4 time_in_frame

/-! Derived definitions used to state the theorems. -/

/-- Linear interpolation between two vectors, `a + t * (b - a)`. -/
def lerpV (t : ℚ) (a b : Vec3) : Vec3 := a + t • (b - a)

/-- Cubic Bézier evaluation by repeated linear interpolation
(De Casteljau) over four control points. -/
def bezierPoint (p0 p1 p2 p3 : Vec3) (t : ℚ) : Vec3 :=
  lerpV t (lerpV t (lerpV t p0 p1) (lerpV t p1 p2))
          (lerpV t (lerpV t p1 p2) (lerpV t p2 p3))

/-- The modelled `sqrt` behaves as the real square root at `q`. -/
def goodSqrt (sqrt : ℚ → ℚ) (q : ℚ) : Prop :=
  0 ≤ sqrt q ∧ sqrt q * sqrt q = q

/-- The pre-clamp velocity of the Falling branch of `Particle.tick`:
the inverse-square gravity term scaled by the squared timestep, exactly
as the source computes it. -/
def fallingVelocityRaw (sqrt : ℚ → ℚ) (p : Particle) (dt : ℚ) : Vec3 :=
  let dist := p.position - p.target
  p.velocity - (dt ^ 2 * (GRAVITY_STRENGTH / dist.mag_sq)) • Vec3.normalized sqrt dist

/-- The Falling velocity update as the specification words it: the
inverse-square acceleration integrated once over the timestep
(so the gravity term is scaled by `dt`, not `dt ^ 2`), then clamped.
Written from the specification for comparison against `Particle.tick`. -/
def specFallingVelocity (sqrt : ℚ → ℚ) (p : Particle) (dt : ℚ) : Vec3 :=
  let dist := p.position - p.target
  let v1 := p.velocity - (dt * (GRAVITY_STRENGTH / dist.mag_sq)) • Vec3.normalized sqrt dist
  let speed := sqrt v1.mag_sq
  if speed > MAX_SPEED then (MAX_SPEED / speed) • v1 else v1

/-- Maximum of a list of rationals, at least 0. -/
def listMax (l : List ℚ) : ℚ := l.foldr max 0

/-! Concrete inputs used by witnesses and counterexamples. -/

/-- Placeholder square root for branches that never evaluate it. -/
def sqZero : ℚ → ℚ := fun _ => 0

/-- Square root table valid at every value where the Falling-branch
computations below evaluate it. -/
def sqC2 : ℚ → ℚ := fun q =>
  if q = 250000 then 500
  else if q = 1 / 10000 then 1 / 100
  else if q = 1 / 2500 then 1 / 50
  else 0

/-- A Falling particle already inside the orbit-distance threshold. -/
def pW1 : Particle :=
  { position := ⟨0, 0, 0⟩, velocity := ⟨1, 0, 0⟩, target := ⟨0, 0, 0⟩,
    light_color := (0, 0, 0), trail_width := 1 / 100, trail_length := 80,
    trail_points := [], endPath := none }

/-- A Falling particle inside the threshold of its own perturbed target,
far from the global attractor: the sign rule tested against TARGET_POS
turns the offset away from this particle's own target. -/
def pX1 : Particle :=
  { position := ⟨5, 49 / 10, 5⟩, velocity := ⟨1, 0, 0⟩, target := ⟨5, 5, 5⟩,
    light_color := (0, 0, 0), trail_width := 1 / 100, trail_length := 80,
    trail_points := [], endPath := none }

/-- The end path the source synthesizes for pX1: control1 = position +
(1/20)·velocity, and the sideways offset is −vel_turned = (0, −1/20, 0)
because dot(TARGET_POS − control1, vel_turned) < 0 there. -/
def eX1 : EndPath :=
  { start := ⟨5, 49 / 10, 5⟩, control1 := ⟨101 / 20, 49 / 10, 5⟩,
    control2 := ⟨101 / 20, 97 / 20, 5⟩, t := 0 }

/-- A Falling particle far from its target, with a rationally-valued
distance (|position - target| = 500). -/
def pC2 : Particle :=
  { position := ⟨300, 400, 0⟩, velocity := ⟨0, 0, 0⟩, target := ⟨0, 0, 0⟩,
    light_color := (0, 0, 0), trail_width := 1 / 100, trail_length := 80,
    trail_points := [], endPath := none }

/-- A concrete Bézier end path at parameter 0. -/
def epC3 : EndPath :=
  { start := ⟨0, 0, 0⟩, control1 := ⟨1, 1, 0⟩, control2 := ⟨2, 1, 0⟩, t := 0 }

/-- A particle on its ending path, with two distinct trail samples and a
perturbed per-particle target distinct from the global attractor. -/
def pC3 : Particle :=
  { position := ⟨0, 0, 0⟩, velocity := ⟨0, 0, 0⟩, target := ⟨5, 5, 5⟩,
    light_color := (0, 0, 0), trail_width := 1, trail_length := 80,
    trail_points := [⟨⟨1, 0, 0⟩, 1⟩, ⟨⟨2, 0, 0⟩, 1⟩],
    endPath := some epC3 }

/-- A freshly constructed 2x2 heat field. -/
def fireC4 : Fire := { width := 2, height := 2, cooling_rate := 1 / 2, heat_buf := [0, 0, 1, 1] }

/-- The same field after one propagate call with the draws below. -/
def fireC4' : Fire :=
  { width := 2, height := 2, cooling_rate := 1 / 2, heat_buf := [1 / 2, 0, 1, 1 / 2] }

/-- Wind draws: no wind for the first source cell, +2 for the rest. -/
def windC4 : ℕ → ℤ := fun i => if i = 0 then 0 else 2

/-- Cooling draws: always exactly the mean cooling rate. -/
def coolC4 : ℕ → ℚ := fun _ => 1 / 2

/-- A one-column heat field of height 2, as constructed by Fire::new. -/
def fireC6 : Fire := { width := 1, height := 2, cooling_rate := 0, heat_buf := [0, 1] }

/-- A freshly constructed 3x2 heat field. -/
def fireW4 : Fire :=
  { width := 3, height := 2, cooling_rate := 1 / 2, heat_buf := [0, 0, 0, 1, 1, 1] }

/-- The 3x2 field after one propagate round with constant wind +2 and
constant cooling 1/2. -/
def fireW4' : Fire :=
  { width := 3, height := 2, cooling_rate := 1 / 2,
    heat_buf := [0, 0, 1 / 2, 1 / 2, 1 / 2, 1] }

/-- One propagate round of constant wind +2 and constant cooling 1/2. -/
def roundsW4 : List ((ℕ → ℤ) × (ℕ → ℚ)) := [(fun _ => 2, fun _ => 1 / 2)]

/-! Helper lemmas about the vector operations. -/

theorem Vec3.dot_comm (a b : Vec3) : a.dot b = b.dot a := by
  unfold Vec3.dot; ring

theorem Vec3.neg_dot (a b : Vec3) : (-a).dot b = -(a.dot b) := by
  cases a; cases b
  simp only [Vec3.neg_def, Vec3.dot]
  ring

theorem Vec3.add_sub_cancel_left (a b : Vec3) : a + b - a = b := by
  cases a; cases b
  simp only [Vec3.add_def, Vec3.sub_def, Vec3.mk.injEq]
  refine ⟨by ring, by ring, by ring⟩

theorem Vec3.mag_sq_smul (c : ℚ) (a : Vec3) : (c • a).mag_sq = c ^ 2 * a.mag_sq := by
  cases a
  simp only [Vec3.smul_def, Vec3.mag_sq, Vec3.dot]
  ring

/-- C1 (amended): a particle in the Falling phase whose squared distance
to its own target is at most ORBIT_DISTANCE squared moves to the
EndingPath phase in exactly one tick, starting the Bézier at its current
position with t = 0, and the synthesized sideways offset turns toward
the GLOBAL attractor TARGET_POS (the point the sign rule in the source
tests against), not necessarily toward the particle's own target:
dot(control2 - control1, TARGET_POS - control1) is nonnegative. -/
theorem tick_enters_endingPath (sqrt : ℚ → ℚ) (p : Particle) (dt : ℚ)
    (hfall : p.endPath = none)
    (hclose : (p.position - p.target).mag_sq ≤ ORBIT_DISTANCE ^ 2) :
    ∃ e : EndPath, (Particle.tick sqrt p dt).endPath = some e ∧
      e.start = p.position ∧ e.t = 0 ∧
      0 ≤ (e.control2 - e.control1).dot (TARGET_POS - e.control1) := by
  have hno : ¬((p.position - p.target).mag_sq > ORBIT_DISTANCE ^ 2) := not_lt.mpr hclose
  simp only [Particle.tick, hfall]
  rw [if_neg hno]
  refine ⟨_, rfl, rfl, rfl, ?_⟩
  simp only [Vec3.add_sub_cancel_left]
  set c1 := p.position + ORBIT_PATH_SIZE • p.velocity with hc1
  set vt : Vec3 := ⟨-(ORBIT_PATH_SIZE • p.velocity).y, (ORBIT_PATH_SIZE • p.velocity).x, 0⟩
    with hvt
  by_cases h : (TARGET_POS - c1).dot vt > 0
  · rw [if_pos h, Vec3.dot_comm]
    exact le_of_lt h
  · rw [if_neg h, Vec3.neg_dot, Vec3.dot_comm]
    simpa using not_lt.mp h

/-- Witness for C1 at a concrete particle inside the threshold. -/
theorem tick_enters_endingPath_witness :
    pW1.endPath = none ∧ (pW1.position - pW1.target).mag_sq ≤ ORBIT_DISTANCE ^ 2 ∧
    ∃ e : EndPath, (Particle.tick sqZero pW1 (1 / 60)).endPath = some e ∧
      e.start = pW1.position ∧ e.t = 0 ∧
      0 ≤ (e.control2 - e.control1).dot (TARGET_POS - e.control1) :=
  ⟨rfl, by norm_num [pW1, Vec3.sub_def, Vec3.mag_sq, Vec3.dot, ORBIT_DISTANCE],
   tick_enters_endingPath sqZero pW1 (1 / 60) rfl
     (by norm_num [pW1, Vec3.sub_def, Vec3.mag_sq, Vec3.dot, ORBIT_DISTANCE])⟩

/-- Counterexample to C1 as stated: at a Falling particle inside the
threshold of its own perturbed target, the offset the source picks (by
testing the sign against TARGET_POS, not against the particle's target)
gives dot(control2 - control1, target - control1) = -1/200 < 0. -/
theorem tick_enters_endingPath_claim_counterexample :
    pX1.endPath = none ∧
    (pX1.position - pX1.target).mag_sq ≤ ORBIT_DISTANCE ^ 2 ∧
    (Particle.tick sqZero pX1 (1 / 60)).endPath = some eX1 ∧
    (eX1.control2 - eX1.control1).dot (pX1.target - eX1.control1) < 0 := by
  refine ⟨rfl, ?_, ?_, ?_⟩
  · norm_num [pX1, Vec3.sub_def, Vec3.mag_sq, Vec3.dot, ORBIT_DISTANCE]
  · simp only [Particle.tick, pX1, eX1, TARGET_POS, ORBIT_DISTANCE, ORBIT_PATH_SIZE,
      Vec3.add_def, Vec3.sub_def, Vec3.neg_def, Vec3.smul_def, Vec3.mag_sq, Vec3.dot,
      Vec3.mk.injEq]
    norm_num
  · norm_num [pX1, eX1, Vec3.sub_def, Vec3.dot]

/-! Helper lemmas about the fixed-timestep loop. -/

theorem simLoop_card_le (fire_dt : ℚ) : ∀ (n : ℕ) (t : ℚ), (simLoop fire_dt n t).1 ≤ n := by
  intro n
  induction n with
  | zero => intro t; exact le_refl 0
  | succ n ih =>
    intro t
    rw [simLoop]
    by_cases h : t < fire_dt
    · rw [if_pos h]; exact Nat.zero_le _
    · rw [if_neg h]
      exact Nat.succ_le_succ (ih (t - fire_dt))

theorem simLoop_resid (fire_dt : ℚ) :
    ∀ (n : ℕ) (t : ℚ), (simLoop fire_dt n t).2 = t - (simLoop fire_dt n t).1 * fire_dt := by
  intro n
  induction n with
  | zero => intro t; simp [simLoop]
  | succ n ih =>
    intro t
    rw [simLoop]
    by_cases h : t < fire_dt
    · rw [if_pos h]; simp
    · rw [if_neg h]
      have := ih (t - fire_dt)
      push_cast
      push_cast at this
      simp only [this]
      ring

theorem simLoop_resid_nonneg (fire_dt : ℚ) :
    ∀ (n : ℕ) (t : ℚ), 0 ≤ t → 0 ≤ (simLoop fire_dt n t).2 := by
  intro n
  induction n with
  | zero => intro t ht; exact ht
  | succ n ih =>
    intro t ht
    rw [simLoop]
    by_cases h : t < fire_dt
    · rw [if_pos h]; exact ht
    · rw [if_neg h]
      exact ih (t - fire_dt) (by linarith [not_lt.mp h])

theorem simLoop_saturates (fire_dt : ℚ) (hdt : 0 < fire_dt) :
    ∀ (n : ℕ) (t : ℚ), (n : ℚ) * fire_dt ≤ t →
      simLoop fire_dt n t = (n, t - (n : ℚ) * fire_dt) := by
  intro n
  induction n with
  | zero => intro t _; simp [simLoop]
  | succ n ih =>
    intro t ht
    have hn : (0 : ℚ) ≤ (n : ℚ) * fire_dt :=
      mul_nonneg (Nat.cast_nonneg n) (le_of_lt hdt)
    have hcast : ((n + 1 : ℕ) : ℚ) = (n : ℚ) + 1 := by push_cast; ring
    rw [hcast] at ht
    have hge : ¬(t < fire_dt) := by
      rw [not_lt]
      nlinarith
    rw [simLoop, if_neg hge, ih (t - fire_dt) (by linarith)]
    rw [Prod.ext_iff]
    constructor
    · rfl
    · rw [hcast]
      push_cast
      ring

/-- C7: the fixed-step scheduler of the fire demo.  Starting a frame with
an accumulated debt of 100 timesteps runs exactly 4 propagate steps and
leaves a debt of 100*dt - 4*dt; in general at most 4 steps run per frame,
the residual debt is never negative when the incoming debt is not, and
the residual equals the incoming debt minus the steps taken (carried
forward, never reset). -/
theorem frameSteps_spec (dt t : ℚ) (hdt : 0 < dt) :
    frameSteps dt (100 * dt) = (4, 100 * dt - 4 * dt) ∧
    (frameSteps dt t).1 ≤ 4 ∧
    (0 ≤ t → 0 ≤ (frameSteps dt t).2) ∧
    (frameSteps dt t).2 = t - (frameSteps dt t).1 * dt := by
  refine ⟨?_, simLoop_card_le dt 4 t, fun h => simLoop_resid_nonneg dt 4 t h,
    simLoop_resid dt 4 t⟩
  have h4 : ((4 : ℕ) : ℚ) * dt ≤ 100 * dt := by
    push_cast
    nlinarith
  have := simLoop_saturates dt hdt 4 (100 * dt) h4
  rw [frameSteps, this]
  norm_num

/-- Witness for C7 at the concrete fire timestep 1/20. -/
theorem frameSteps_spec_witness :
    (0 : ℚ) < 1 / 20 ∧
    (frameSteps (1 / 20) (100 * (1 / 20)) = (4, 100 * (1 / 20) - 4 * (1 / 20)) ∧
     (frameSteps (1 / 20) (7 / 100)).1 ≤ 4 ∧
     ((0 : ℚ) ≤ 7 / 100 → 0 ≤ (frameSteps (1 / 20) (7 / 100)).2) ∧
     (frameSteps (1 / 20) (7 / 100)).2 = 7 / 100 - (frameSteps (1 / 20) (7 / 100)).1 * (1 / 20)) :=
  ⟨by norm_num, frameSteps_spec (1 / 20) (7 / 100) (by norm_num)⟩

/-- C9: remove_completed removes exactly the particles with an empty
trail, keeps every particle with a nonempty trail, and returns the number
of particles removed. -/
theorem remove_completed_spec (ps : List Particle) :
    (∀ p, p ∈ ps → (p ∈ (Particle.remove_completed ps).1 ↔ p.trail_points ≠ [])) ∧
    (∀ p, p ∈ (Particle.remove_completed ps).1 → p ∈ ps) ∧
    (Particle.remove_completed ps).2 = ps.countP fun p => p.trail_points.isEmpty := by
  refine ⟨?_, ?_, ?_⟩
  · intro p hp
    simp [Particle.remove_completed, List.mem_filter, hp, List.isEmpty_iff]
  · intro p hp
    exact (List.mem_filter.mp hp).1
  · have h1 : (List.filter (fun p : Particle => !p.trail_points.isEmpty) ps).length =
        ps.countP fun p : Particle => !p.trail_points.isEmpty :=
      (List.countP_eq_length_filter _ _).symm
    have h2 := List.length_eq_countP_add_countP (fun p : Particle => p.trail_points.isEmpty) ps
    have h3 : ps.countP (fun p : Particle => decide ¬(p.trail_points.isEmpty = true)) =
        ps.countP fun p : Particle => !p.trail_points.isEmpty := by
      apply List.countP_congr
      intro p _
      cases h : p.trail_points.isEmpty <;> simp [h]
    rw [h3] at h2
    simp only [Particle.remove_completed]
    rw [h1]
    omega

/-- One tick keeps a particle on its ending path and never decreases t. -/
theorem tick_endPath_step (sqrt : ℚ → ℚ) (p : Particle) (dt : ℚ) (e : EndPath)
    (he : p.endPath = some e) (hdt : 0 ≤ dt) :
    ∃ e1, (Particle.tick sqrt p dt).endPath = some e1 ∧ e.t ≤ e1.t := by
  simp only [Particle.tick, he]
  by_cases h : e.t < 1
  · rw [if_pos h]
    refine ⟨_, rfl, ?_⟩
    have hot : 0 ≤ dt / ORBIT_TIME := div_nonneg hdt (by norm_num [ORBIT_TIME])
    show e.t ≤ e.t + dt / ORBIT_TIME
    linarith
  · rw [if_neg h]
    exact ⟨e, rfl, le_refl _⟩

/-- C10: the EndingPath phase is absorbing.  Once a particle is on the
ending path, any sequence of ticks with nonnegative timesteps keeps it
there, and the path parameter t never decreases. -/
theorem endingPath_absorbing (sqrt : ℚ → ℚ) (p : Particle) (e : EndPath) (dts : List ℚ)
    (he : p.endPath = some e) (hdts : ∀ d ∈ dts, 0 ≤ d) :
    ∃ e1, (Particle.ticks sqrt p dts).endPath = some e1 ∧ e.t ≤ e1.t := by
  induction dts generalizing p e with
  | nil => exact ⟨e, he, le_refl _⟩
  | cons d rest ih =>
    have hd : 0 ≤ d := hdts d (List.mem_cons_self d rest)
    obtain ⟨e1, he1, ht1⟩ := tick_endPath_step sqrt p d e he hd
    obtain ⟨e2, he2, ht2⟩ :=
      ih (Particle.tick sqrt p d) e1 he1 fun x hx => hdts x (List.mem_cons_of_mem d hx)
    exact ⟨e2, he2, le_trans ht1 ht2⟩

/-- Witness for C10 at a concrete particle on the ending path. -/
theorem endingPath_absorbing_witness :
    pC3.endPath = some epC3 ∧ (∀ d ∈ [(1 : ℚ) / 60, 1 / 2], 0 ≤ d) ∧
    ∃ e1, (Particle.ticks sqZero pC3 [(1 : ℚ) / 60, 1 / 2]).endPath = some e1 ∧
      epC3.t ≤ e1.t :=
  ⟨rfl, by intro d hd; fin_cases hd <;> norm_num,
   endingPath_absorbing sqZero pC3 epC3 [(1 : ℚ) / 60, 1 / 2] rfl
     (by intro d hd; fin_cases hd <;> norm_num)⟩

/-- The nested linear interpolations are the cubic Bézier in Bernstein
form: the nesting is a genuine De Casteljau evaluation. -/
theorem bezierPoint_bernstein (p0 p1 p2 p3 : Vec3) (t : ℚ) :
    bezierPoint p0 p1 p2 p3 t =
      ((1 - t) ^ 3) • p0 + (3 * (1 - t) ^ 2 * t) • p1 +
        (3 * (1 - t) * t ^ 2) • p2 + (t ^ 3) • p3 := by
  cases p0; cases p1; cases p2; cases p3
  simp only [bezierPoint, lerpV, Vec3.add_def, Vec3.sub_def, Vec3.smul_def, Vec3.mk.injEq]
  refine ⟨by ring, by ring, by ring⟩

/-- C3 (amended): while on the ending path with t < 1, one tick advances
t by dt / ORBIT_TIME, sets the position to the cubic Bézier over
{start, control1, control2, TARGET_POS} evaluated at the new t by
De Casteljau (equal to the Bernstein-form cubic), pops the oldest trail
sample and pushes the new position at the front with width
trail_width * max (1 - t^4) (1/20), leaving the trail length unchanged
whenever the trail is nonempty. -/
theorem tick_endingPath_spec (sqrt : ℚ → ℚ) (p : Particle) (dt : ℚ) (e : EndPath)
    (he : p.endPath = some e) (ht : e.t < 1) :
    (Particle.tick sqrt p dt).endPath =
      some { start := e.start, control1 := e.control1, control2 := e.control2,
             t := e.t + dt / ORBIT_TIME } ∧
    (Particle.tick sqrt p dt).position =
      bezierPoint e.start e.control1 e.control2 TARGET_POS (e.t + dt / ORBIT_TIME) ∧
    (Particle.tick sqrt p dt).position =
      ((1 - (e.t + dt / ORBIT_TIME)) ^ 3) • e.start +
        (3 * (1 - (e.t + dt / ORBIT_TIME)) ^ 2 * (e.t + dt / ORBIT_TIME)) • e.control1 +
        (3 * (1 - (e.t + dt / ORBIT_TIME)) * (e.t + dt / ORBIT_TIME) ^ 2) • e.control2 +
        ((e.t + dt / ORBIT_TIME) ^ 3) • TARGET_POS ∧
    (Particle.tick sqrt p dt).trail_points =
      { position := bezierPoint e.start e.control1 e.control2 TARGET_POS
          (e.t + dt / ORBIT_TIME),
        width := p.trail_width * max (1 - (e.t + dt / ORBIT_TIME) ^ 4) (1 / 20) }
        :: p.trail_points.dropLast ∧
    (p.trail_points ≠ [] →
      (Particle.tick sqrt p dt).trail_points.length = p.trail_points.length) := by
  simp only [Particle.tick, he]
  rw [if_pos ht]
  refine ⟨rfl, rfl,
    bezierPoint_bernstein e.start e.control1 e.control2 TARGET_POS (e.t + dt / ORBIT_TIME),
    rfl, fun hne => ?_⟩
  simp only [List.length_cons, List.length_dropLast]
  have := List.length_pos.mpr hne
  omega

/-- Witness for C3 at a concrete particle on the ending path. -/
theorem tick_endingPath_spec_witness :
    pC3.endPath = some epC3 ∧ epC3.t < 1 ∧
    ((Particle.tick sqZero pC3 (1 / 4)).endPath =
      some { start := epC3.start, control1 := epC3.control1, control2 := epC3.control2,
             t := epC3.t + (1 / 4) / ORBIT_TIME } ∧
     (Particle.tick sqZero pC3 (1 / 4)).position =
      bezierPoint epC3.start epC3.control1 epC3.control2 TARGET_POS
        (epC3.t + (1 / 4) / ORBIT_TIME) ∧
     (Particle.tick sqZero pC3 (1 / 4)).position =
      ((1 - (epC3.t + (1 / 4) / ORBIT_TIME)) ^ 3) • epC3.start +
        (3 * (1 - (epC3.t + (1 / 4) / ORBIT_TIME)) ^ 2 *
          (epC3.t + (1 / 4) / ORBIT_TIME)) • epC3.control1 +
        (3 * (1 - (epC3.t + (1 / 4) / ORBIT_TIME)) *
          (epC3.t + (1 / 4) / ORBIT_TIME) ^ 2) • epC3.control2 +
        ((epC3.t + (1 / 4) / ORBIT_TIME) ^ 3) • TARGET_POS ∧
     (Particle.tick sqZero pC3 (1 / 4)).trail_points =
      { position := bezierPoint epC3.start epC3.control1 epC3.control2 TARGET_POS
          (epC3.t + (1 / 4) / ORBIT_TIME),
        width := pC3.trail_width * max (1 - (epC3.t + (1 / 4) / ORBIT_TIME) ^ 4) (1 / 20) }
        :: pC3.trail_points.dropLast ∧
     (pC3.trail_points ≠ [] →
      (Particle.tick sqZero pC3 (1 / 4)).trail_points.length = pC3.trail_points.length)) :=
  ⟨rfl, by norm_num [epC3],
   tick_endingPath_spec sqZero pC3 (1 / 4) epC3 rfl (by norm_num [epC3])⟩

/-- Counterexample to C3 as stated: with a per-particle target distinct
from the global attractor, the new position is not the Bézier whose
fourth control point is the particle's own target, and the new trail is
not the old trail with its newest sample replaced in place (the source
pops the oldest sample and prepends the new one). -/
theorem tick_endingPath_claim_counterexample :
    (Particle.tick sqZero pC3 (1 / 4)).position ≠
      bezierPoint epC3.start epC3.control1 epC3.control2 pC3.target
        (epC3.t + (1 / 4) / ORBIT_TIME) ∧
    (Particle.tick sqZero pC3 (1 / 4)).trail_points ≠
      pC3.trail_points.set 0
        { position := (Particle.tick sqZero pC3 (1 / 4)).position,
          width := pC3.trail_width *
            max (1 - (epC3.t + (1 / 4) / ORBIT_TIME) ^ 4) (1 / 20) } := by
  constructor
  · simp only [Particle.tick, pC3, epC3, bezierPoint, lerpV, TARGET_POS, ORBIT_TIME,
      Vec3.add_def, Vec3.sub_def, Vec3.smul_def, Vec3.mk.injEq]
    norm_num
  · simp only [Particle.tick, pC3, epC3, bezierPoint, lerpV, TARGET_POS, ORBIT_TIME,
      Vec3.add_def, Vec3.sub_def, Vec3.smul_def, List.set, List.dropLast,
      List.cons.injEq, LineVertex.mk.injEq, Vec3.mk.injEq]
    norm_num

/-- Clamping a vector of magnitude s to MAX_SPEED bounds its squared
magnitude by MAX_SPEED squared. -/
theorem mag_sq_clamped (v1 : Vec3) (s : ℚ) (hs0 : 0 ≤ s) (hsq : s * s = v1.mag_sq) :
    (if s > MAX_SPEED then (MAX_SPEED / s) • v1 else v1).mag_sq ≤ MAX_SPEED ^ 2 := by
  by_cases hc : s > MAX_SPEED
  · rw [if_pos hc, Vec3.mag_sq_smul, ← hsq]
    have hspos : (0 : ℚ) < s := lt_trans (by norm_num [MAX_SPEED]) hc
    have hsne : s ≠ 0 := ne_of_gt hspos
    have heq : (MAX_SPEED / s) ^ 2 * (s * s) = MAX_SPEED ^ 2 := by
      rw [div_pow, ← pow_two s, div_mul_cancel₀ _ (pow_ne_zero 2 hsne)]
    rw [heq]
  · rw [if_neg hc, ← hsq]
    have hle : s ≤ MAX_SPEED := not_lt.mp hc
    have := mul_self_le_mul_self hs0 hle
    nlinarith

/-- Prepending one sample after the conditional pop keeps the trail
within a positive capacity. -/
theorem cons_trail_length_le (l : List LineVertex) (cap : ℕ) (x : LineVertex)
    (h1 : 1 ≤ cap) (h2 : l.length ≤ cap) :
    (x :: if l.length ≥ cap then l.dropLast else l).length ≤ cap := by
  by_cases hfull : l.length ≥ cap
  · rw [if_pos hfull]
    simp only [List.length_cons, List.length_dropLast]
    omega
  · rw [if_neg hfull]
    simp only [List.length_cons]
    omega

/-- C2 (amended): one tick of a Falling particle outside the orbit
threshold subtracts the inverse-square gravity term scaled by the
SQUARED timestep from the velocity, clamps the speed to MAX_SPEED (the
squared magnitude of the new velocity never exceeds MAX_SPEED squared),
advances the position by dt times the new velocity, prepends exactly one
trail sample after popping the oldest one when the trail is at capacity,
keeps the trail within capacity, and stays in the Falling phase. -/
theorem tick_falling_spec (sqrt : ℚ → ℚ) (p : Particle) (dt : ℚ)
    (hfall : p.endPath = none)
    (hfar : (p.position - p.target).mag_sq > ORBIT_DISTANCE ^ 2)
    (hs1 : goodSqrt sqrt (p.position - p.target).mag_sq)
    (hs2 : goodSqrt sqrt (fallingVelocityRaw sqrt p dt).mag_sq) :
    ((Particle.tick sqrt p dt).velocity =
      if sqrt (fallingVelocityRaw sqrt p dt).mag_sq > MAX_SPEED
      then (MAX_SPEED / sqrt (fallingVelocityRaw sqrt p dt).mag_sq) •
        fallingVelocityRaw sqrt p dt
      else fallingVelocityRaw sqrt p dt) ∧
    (Particle.tick sqrt p dt).velocity.mag_sq ≤ MAX_SPEED ^ 2 ∧
    (Particle.tick sqrt p dt).position =
      p.position + dt • (Particle.tick sqrt p dt).velocity ∧
    (Particle.tick sqrt p dt).trail_points =
      Particle.point_to_line_vertex (Particle.tick sqrt p dt).position p.trail_width ::
        (if p.trail_points.length ≥ p.trail_length
         then p.trail_points.dropLast else p.trail_points) ∧
    (1 ≤ p.trail_length → p.trail_points.length ≤ p.trail_length →
      (Particle.tick sqrt p dt).trail_points.length ≤ p.trail_length) ∧
    (Particle.tick sqrt p dt).endPath = none := by
  simp only [Particle.tick, hfall]
  rw [if_pos hfar]
  exact ⟨rfl, mag_sq_clamped _ _ hs2.1 hs2.2, rfl, rfl,
    fun h1 h2 => cons_trail_length_le _ _ _ h1 h2, rfl⟩

/-- Witness for C2 at a concrete far-away Falling particle. -/
theorem tick_falling_spec_witness :
    pC2.endPath = none ∧
    (pC2.position - pC2.target).mag_sq > ORBIT_DISTANCE ^ 2 ∧
    goodSqrt sqC2 (pC2.position - pC2.target).mag_sq ∧
    goodSqrt sqC2 (fallingVelocityRaw sqC2 pC2 (1 / 2)).mag_sq ∧
    (Particle.tick sqC2 pC2 (1 / 2)).velocity.mag_sq ≤ MAX_SPEED ^ 2 := by
  have h1 : (pC2.position - pC2.target).mag_sq > ORBIT_DISTANCE ^ 2 := by
    norm_num [pC2, Vec3.sub_def, Vec3.mag_sq, Vec3.dot, ORBIT_DISTANCE]
  have h2 : goodSqrt sqC2 (pC2.position - pC2.target).mag_sq := by
    norm_num [pC2, Vec3.sub_def, Vec3.mag_sq, Vec3.dot, goodSqrt, sqC2]
  have h3 : goodSqrt sqC2 (fallingVelocityRaw sqC2 pC2 (1 / 2)).mag_sq := by
    norm_num [pC2, fallingVelocityRaw, Vec3.normalized, Vec3.sub_def, Vec3.smul_def,
      Vec3.mag_sq, Vec3.dot, goodSqrt, sqC2, GRAVITY_STRENGTH]
  exact ⟨rfl, h1, h2, h3,
    (tick_falling_spec sqC2 pC2 (1 / 2) rfl h1 h2 h3).2.1⟩

/-- Counterexample to C2 as stated: with a square root valid at every
value where the computation evaluates it, the velocity after one tick
differs from the specification's formula, in which the inverse-square
acceleration is integrated once over the timestep (scaled by dt rather
than dt squared). -/
theorem tick_falling_claim_counterexample :
    goodSqrt sqC2 250000 ∧ goodSqrt sqC2 (1 / 10000) ∧ goodSqrt sqC2 (1 / 2500) ∧
    (Particle.tick sqC2 pC2 (1 / 2)).velocity ≠ specFallingVelocity sqC2 pC2 (1 / 2) := by
  refine ⟨by norm_num [goodSqrt, sqC2], by norm_num [goodSqrt, sqC2],
    by norm_num [goodSqrt, sqC2], ?_⟩
  simp only [Particle.tick, specFallingVelocity, fallingVelocityRaw, pC2,
    Vec3.normalized, Vec3.sub_def, Vec3.smul_def, Vec3.add_def, Vec3.mag_sq, Vec3.dot,
    sqC2, GRAVITY_STRENGTH, MAX_SPEED, ORBIT_DISTANCE, Vec3.mk.injEq]
  norm_num

/-! Helper lemmas about the heat field. -/

/-- C8: Fire::new never rejects a degenerate grid.  A zero width is
accepted and silently yields an empty grid, while a zero height with a
positive width makes the usize subtraction `cell_count - width`
underflow, i.e. the construction panics instead of returning an
InvalidDimension error. -/
theorem fire_new_no_rejection :
    Fire.new 0 3 (1 / 10) =
      some { width := 0, height := 3, cooling_rate := 1 / 10, heat_buf := [] } ∧
    Fire.new 3 0 (1 / 10) = none := by
  constructor <;> norm_num [Fire.new]

theorem le_listMax (l : List ℚ) (x : ℚ) (hx : x ∈ l) : x ≤ listMax l := by
  induction l with
  | nil => cases hx
  | cons a t ih =>
    rcases List.mem_cons.mp hx with h | h
    · subst h
      exact le_max_left _ _
    · exact le_trans (ih h) (le_max_right _ _)

theorem listMax_nonneg (l : List ℚ) : 0 ≤ listMax l := by
  induction l with
  | nil => exact le_refl 0
  | cons a t ih => exact le_trans ih (le_max_right _ _)

/-- Every cell left by the propagate loop stays within [0, M] when all
cells start within [0, M] and the cooling draws are admissible for a
nonnegative cooling rate. -/
theorem propagateAux_bounds (w : ℕ) (wind : ℕ → ℤ) (cool : ℕ → ℚ) (cr M : ℚ)
    (hcr : 0 ≤ cr) (hcool : Fire.coolAdmissible cr cool) (hM : 0 ≤ M) :
    ∀ (pairs : List (ℕ × ℕ)) (i : ℕ) (buf buf2 : List ℚ),
      (∀ v ∈ buf, 0 ≤ v ∧ v ≤ M) →
      Fire.propagateAux w wind cool pairs i buf = some buf2 →
      ∀ v ∈ buf2, 0 ≤ v ∧ v ≤ M := by
  intro pairs
  induction pairs with
  | nil =>
    intro i buf buf2 hb h
    simp only [Fire.propagateAux, Option.some.injEq] at h
    subst h
    exact hb
  | cons xy rest ih =>
    intro i buf buf2 hb h
    have hci : 0 ≤ cool i := by
      have := (hcool i).1
      linarith
    simp only [Fire.propagateAux, Option.bind_eq_some] at h
    obtain ⟨buf1, hstep, hrest⟩ := h
    simp only [Fire.propStep] at hstep
    by_cases hg : xy.2 * w + xy.1 < buf.length ∧
        ((((xy.2 * w + xy.1 - w : ℕ) : ℤ) + wind i).toNat) < buf.length
    · rw [if_pos hg] at hstep
      rw [Option.some.injEq] at hstep
      subst hstep
      apply ih (i + 1) _ buf2 ?_ hrest
      intro u hu
      rcases List.mem_or_eq_of_mem_set hu with hmem | heq
      · exact hb u hmem
      · subst heq
        have hvmem : buf.getD (xy.2 * w + xy.1) 0 ∈ buf := by
          rw [List.getD_eq_getElem buf 0 hg.1]
          exact List.getElem_mem hg.1
        have hv := hb _ hvmem
        exact ⟨le_max_right _ _, max_le (by linarith [hv.2]) hM⟩
    · rw [if_neg hg] at hstep
      cases hstep

/-- C5: one propagate call, under admissible cooling draws over a
nonnegative cooling rate and starting from nonnegative cells, leaves
every cell nonnegative and no larger than the maximum cell value present
before the call. -/
theorem propagate_bounds (f : Fire) (wind : ℕ → ℤ) (cool : ℕ → ℚ) (f2 : Fire)
    (hcr : 0 ≤ f.cooling_rate)
    (hcool : Fire.coolAdmissible f.cooling_rate cool)
    (hnn : ∀ v ∈ f.heat_buf, 0 ≤ v)
    (hp : f.propagate wind cool = some f2) :
    ∀ v ∈ f2.heat_buf, 0 ≤ v ∧ v ≤ listMax f.heat_buf := by
  simp only [Fire.propagate, Option.map_eq_some'] at hp
  obtain ⟨buf2, haux, hf2⟩ := hp
  have hres := propagateAux_bounds f.width wind cool f.cooling_rate (listMax f.heat_buf)
    hcr hcool (listMax_nonneg _) (Fire.gridPairs f.width f.height) 0 f.heat_buf buf2
    (fun v hv => ⟨hnn v hv, le_listMax _ v hv⟩) haux
  rw [← hf2]
  exact hres

theorem intToNat_two : (2 : ℤ).toNat = 2 := rfl

theorem intToNat_three : (3 : ℤ).toNat = 3 := rfl

theorem intToNat_four : (4 : ℤ).toNat = 4 := rfl

/-- Evaluation of one propagate call on the concrete 2x2 grid. -/
theorem fireC4_propagate_eval : fireC4.propagate windC4 coolC4 = some fireC4' := by
  norm_num [Fire.propagate, Fire.propagateAux, Fire.propStep, Fire.gridPairs,
    fireC4, fireC4', windC4, coolC4, List.range_succ, max_def,
    intToNat_two, intToNat_three, intToNat_four]

/-- Witness for C5: one concrete propagate call on a 2x2 grid. -/
theorem propagate_bounds_witness :
    (0 : ℚ) ≤ fireC4.cooling_rate ∧
    Fire.coolAdmissible fireC4.cooling_rate coolC4 ∧
    (∀ v ∈ fireC4.heat_buf, 0 ≤ v) ∧
    fireC4.propagate windC4 coolC4 = some fireC4' ∧
    ∀ v ∈ fireC4'.heat_buf, 0 ≤ v ∧ v ≤ listMax fireC4.heat_buf := by
  have h1 : (0 : ℚ) ≤ fireC4.cooling_rate := by norm_num [fireC4]
  have h2 : Fire.coolAdmissible fireC4.cooling_rate coolC4 := by
    intro i
    constructor <;> norm_num [coolC4, fireC4]
  have h3 : ∀ v ∈ fireC4.heat_buf, (0 : ℚ) ≤ v := by
    intro v hv
    fin_cases hv <;> norm_num
  exact ⟨h1, h2, h3, fireC4_propagate_eval,
    propagate_bounds fireC4 windC4 coolC4 fireC4' h1 h2 h3 fireC4_propagate_eval⟩

/-- Membership in the propagate iteration domain gives the coordinate
bounds of the loop ranges. -/
theorem mem_gridPairs (w h : ℕ) (xy : ℕ × ℕ) (hxy : xy ∈ Fire.gridPairs w h) :
    xy.1 < w ∧ 1 ≤ xy.2 ∧ xy.2 < h := by
  simp only [Fire.gridPairs, List.mem_flatMap, List.mem_map, List.mem_range] at hxy
  obtain ⟨x, hx, i, hi, rfl⟩ := hxy
  exact ⟨hx, by omega, by omega⟩

/-- The source index of an in-range cell is inside the buffer. -/
theorem src_idx_lt (w h x y : ℕ) (hx : x < w) (hy2 : y < h) : y * w + x < w * h :=
  calc y * w + x < y * w + w := Nat.add_lt_add_left hx (y * w)
    _ = (y + 1) * w := (Nat.succ_mul y w).symm
    _ ≤ h * w := Nat.mul_le_mul_right w (by omega)
    _ = w * h := Nat.mul_comm h w

/-- The target index is bounded by the start of the bottom row plus one:
one row above the source, plus wind at most 2, clamped below at 0. -/
theorem target_idx_le (w h x y : ℕ) (wd : ℤ) (hx : x < w) (hy1 : 1 ≤ y) (hy2 : y < h)
    (hwd : wd ≤ 2) :
    (((y * w + x - w : ℕ) : ℤ) + wd).toNat ≤ (h - 1) * w + 1 := by
  obtain ⟨y', rfl⟩ : ∃ y', y = y' + 1 := ⟨y - 1, by omega⟩
  obtain ⟨h', rfl⟩ : ∃ h', h = h' + 2 := ⟨h - 2, by omega⟩
  have hsub : (y' + 1) * w + x - w = y' * w + x := by
    rw [Nat.succ_mul]
    generalize y' * w = A
    omega
  have hh1 : h' + 2 - 1 = h' + 1 := by omega
  rw [hsub, Int.toNat_le, hh1, Nat.succ_mul]
  have hmul : y' * w ≤ h' * w := Nat.mul_le_mul_right w (by omega)
  have hx' : (x : ℤ) < (w : ℤ) := by exact_mod_cast hx
  have hmul' : (y' : ℤ) * (w : ℤ) ≤ (h' : ℤ) * (w : ℤ) := by exact_mod_cast hmul
  push_cast
  linarith

/-- With width at least 2 the bottom-row start plus two is still inside
the buffer. -/
theorem bottom_margin_le (w h : ℕ) (hw : 2 ≤ w) (hh : 2 ≤ h) :
    (h - 1) * w + 2 ≤ w * h := by
  obtain ⟨h', rfl⟩ : ∃ h', h = h' + 2 := ⟨h - 2, by omega⟩
  have e1 : (h' + 2 - 1) * w = h' * w + w := by
    have h2 : h' + 2 - 1 = h' + 1 := by omega
    rw [h2, Nat.succ_mul]
  have e2 : w * (h' + 2) = h' * w + w + w := by ring
  rw [e1, e2]
  exact Nat.add_le_add_left hw _

/-- With width at least 2, every step of the propagate loop stays in
bounds and the loop completes. -/
theorem propagateAux_isSome (w h : ℕ) (wind : ℕ → ℤ) (cool : ℕ → ℚ)
    (hw : 2 ≤ w) (hwind : Fire.windAdmissible wind) :
    ∀ (pairs : List (ℕ × ℕ)) (i : ℕ) (buf : List ℚ),
      buf.length = w * h →
      (∀ xy ∈ pairs, xy.1 < w ∧ 1 ≤ xy.2 ∧ xy.2 < h) →
      (Fire.propagateAux w wind cool pairs i buf).isSome := by
  intro pairs
  induction pairs with
  | nil =>
    intro i buf _ _
    simp [Fire.propagateAux]
  | cons xy rest ih =>
    intro i buf hlen hall
    obtain ⟨hx, hy1, hy2⟩ := hall xy (List.mem_cons_self _ _)
    have hh : 2 ≤ h := by omega
    have hsrc : xy.2 * w + xy.1 < buf.length := by
      rw [hlen]
      exact src_idx_lt w h xy.1 xy.2 hx hy2
    have htar : ((((xy.2 * w + xy.1 - w : ℕ) : ℤ) + wind i).toNat) < buf.length := by
      rw [hlen]
      have h1 := target_idx_le w h xy.1 xy.2 (wind i) hx hy1 hy2 (hwind i).2
      have h2 := bottom_margin_le w h hw hh
      omega
    simp only [Fire.propagateAux, Fire.propStep]
    rw [if_pos ⟨hsrc, htar⟩, Option.some_bind]
    exact ih (i + 1) _ (by rw [List.length_set, hlen])
      fun z hz => hall z (List.mem_cons_of_mem _ hz)

/-- C6 (amended): for a well-formed heat field of width at least 2,
propagate never indexes out of bounds: the clamped target index is
always inside the cell buffer and the call completes normally. -/
theorem propagate_in_bounds (f : Fire) (wind : ℕ → ℤ) (cool : ℕ → ℚ)
    (hw : 2 ≤ f.width) (hlen : f.heat_buf.length = f.width * f.height)
    (hwind : Fire.windAdmissible wind) :
    (f.propagate wind cool).isSome := by
  simp only [Fire.propagate]
  have h := propagateAux_isSome f.width f.height wind cool hw hwind
    (Fire.gridPairs f.width f.height) 0 f.heat_buf hlen
    fun xy hxy => mem_gridPairs f.width f.height xy hxy
  obtain ⟨buf2, hbuf⟩ := Option.isSome_iff_exists.mp h
  rw [hbuf]
  rfl

/-- Witness for C6 on the concrete 2x2 grid. -/
theorem propagate_in_bounds_witness :
    2 ≤ fireC4.width ∧ fireC4.heat_buf.length = fireC4.width * fireC4.height ∧
    Fire.windAdmissible windC4 ∧
    (fireC4.propagate windC4 coolC4).isSome := by
  have hw : 2 ≤ fireC4.width := by norm_num [fireC4]
  have hlen : fireC4.heat_buf.length = fireC4.width * fireC4.height := by
    norm_num [fireC4]
  have hwind : Fire.windAdmissible windC4 := by
    intro i
    by_cases h : i = 0 <;> simp [windC4, h]
  exact ⟨hw, hlen, hwind, propagate_in_bounds fireC4 windC4 coolC4 hw hlen hwind⟩

/-- Counterexample to C6 as stated: on a grid of width 1 and height 2 an
admissible wind draw of +2 sends the target index to 2, one past the end
of the 2-cell buffer, and the propagate call panics (modelled as none). -/
theorem propagate_oob_counterexample :
    Fire.new 1 2 0 = some fireC6 ∧
    Fire.windAdmissible (fun _ => 2) ∧
    Fire.coolAdmissible 0 (fun _ => 0) ∧
    fireC6.propagate (fun _ => 2) (fun _ => 0) = none := by
  refine ⟨rfl, ?_, ?_, rfl⟩
  · intro i
    constructor <;> norm_num
  · intro i
    constructor <;> norm_num

/-- Every write of the propagate loop lands strictly below the bottom
row start plus two, so higher cells are untouched. -/
theorem propagateAux_high_unchanged (w h : ℕ) (wind : ℕ → ℤ) (cool : ℕ → ℚ)
    (hwind : Fire.windAdmissible wind) :
    ∀ (pairs : List (ℕ × ℕ)) (i : ℕ) (buf buf2 : List ℚ),
      (∀ xy ∈ pairs, xy.1 < w ∧ 1 ≤ xy.2 ∧ xy.2 < h) →
      Fire.propagateAux w wind cool pairs i buf = some buf2 →
      ∀ j, (h - 1) * w + 2 ≤ j → buf2.get? j = buf.get? j := by
  intro pairs
  induction pairs with
  | nil =>
    intro i buf buf2 _ hp j hj
    simp only [Fire.propagateAux, Option.some.injEq] at hp
    subst hp
    rfl
  | cons xy rest ih =>
    intro i buf buf2 hall hp j hj
    obtain ⟨hx, hy1, hy2⟩ := hall xy (List.mem_cons_self _ _)
    simp only [Fire.propagateAux, Option.bind_eq_some] at hp
    obtain ⟨buf1, hstep, hrest⟩ := hp
    simp only [Fire.propStep] at hstep
    by_cases hg : xy.2 * w + xy.1 < buf.length ∧
        ((((xy.2 * w + xy.1 - w : ℕ) : ℤ) + wind i).toNat) < buf.length
    · rw [if_pos hg, Option.some.injEq] at hstep
      subst hstep
      have htar := target_idx_le w h xy.1 xy.2 (wind i) hx hy1 hy2 (hwind i).2
      have hne : ((((xy.2 * w + xy.1 - w : ℕ) : ℤ) + wind i).toNat) ≠ j := by omega
      rw [ih (i + 1) _ buf2 (fun z hz => hall z (List.mem_cons_of_mem _ hz)) hrest j hj]
      rw [List.get?_eq_getElem?, List.get?_eq_getElem?, List.getElem?_set_ne hne]
    · rw [if_neg hg] at hstep
      cases hstep

/-- Iterated propagate calls with admissible winds never touch the cells
at or above the bottom-row start plus two, and preserve the grid shape. -/
theorem propagateSeq_high_unchanged (w h : ℕ) :
    ∀ (rounds : List ((ℕ → ℤ) × (ℕ → ℚ))) (f g : Fire),
      f.width = w → f.height = h →
      (∀ r ∈ rounds, Fire.windAdmissible r.1) →
      Fire.propagateSeq f rounds = some g →
      g.width = w ∧ g.height = h ∧
      ∀ j, (h - 1) * w + 2 ≤ j → g.heat_buf.get? j = f.heat_buf.get? j := by
  intro rounds
  induction rounds with
  | nil =>
    intro f g hfw hfh _ hp
    simp only [Fire.propagateSeq, Option.some.injEq] at hp
    subst hp
    exact ⟨hfw, hfh, fun j hj => rfl⟩
  | cons r rest ih =>
    intro f g hfw hfh hadm hp
    simp only [Fire.propagateSeq, Option.bind_eq_some] at hp
    obtain ⟨f1, hp1, hrest⟩ := hp
    simp only [Fire.propagate, Option.map_eq_some'] at hp1
    obtain ⟨buf1, haux, hf1⟩ := hp1
    rw [hfw, hfh] at haux
    have hf1w : f1.width = w := by rw [← hf1]; exact hfw
    have hf1h : f1.height = h := by rw [← hf1]; exact hfh
    have hf1buf : f1.heat_buf = buf1 := by rw [← hf1]
    have hstep : ∀ j, (h - 1) * w + 2 ≤ j → f1.heat_buf.get? j = f.heat_buf.get? j := by
      intro j hj
      rw [hf1buf]
      exact propagateAux_high_unchanged w h r.1 r.2 (hadm r (List.mem_cons_self _ _))
        (Fire.gridPairs w h) 0 f.heat_buf buf1
        (fun xy hxy => mem_gridPairs w h xy hxy) haux j hj
    obtain ⟨hgw, hgh, hkeep⟩ :=
      ih f1 g hf1w hf1h (fun z hz => hadm z (List.mem_cons_of_mem _ hz)) hrest
    exact ⟨hgw, hgh, fun j hj => (hkeep j hj).trans (hstep j hj)⟩

/-- C4 (amended): after construction every bottom-row cell holds 1.0,
and every bottom-row cell other than the two leftmost ones (which wind
wrap-around from right-edge bottom-row sources can overwrite) still
holds 1.0 after any sequence of propagate calls with admissible winds. -/
theorem fire_bottom_row (w h : ℕ) (c : ℚ) (rounds : List ((ℕ → ℤ) × (ℕ → ℚ)))
    (f0 f2 : Fire) (hw : 0 < w) (hh : 0 < h)
    (hrounds : ∀ r ∈ rounds, Fire.windAdmissible r.1)
    (hnew : Fire.new w h c = some f0)
    (hseq : Fire.propagateSeq f0 rounds = some f2) :
    (∀ j, (h - 1) * w ≤ j → j < h * w → f0.heat_buf.get? j = some 1) ∧
    (∀ j, (h - 1) * w + 2 ≤ j → j < h * w → f2.heat_buf.get? j = some 1) := by
  have hle : w ≤ w * h := Nat.le_mul_of_pos_right w hh
  simp only [Fire.new] at hnew
  rw [if_pos hle, Option.some.injEq] at hnew
  subst hnew
  have hbm : (h - 1) * w = w * h - w := by
    rw [Nat.sub_mul, one_mul, Nat.mul_comm]
  have hhw : h * w = w * h := Nat.mul_comm h w
  have hbot : ∀ j, (h - 1) * w ≤ j → j < h * w →
      (List.replicate (w * h - w) (0 : ℚ) ++ List.replicate w 1).get? j = some 1 := by
    intro j hj1 hj2
    rw [hbm] at hj1
    rw [hhw] at hj2
    rw [List.get?_eq_getElem?,
      List.getElem?_append_right (by rw [List.length_replicate]; exact hj1)]
    rw [List.length_replicate, List.getElem?_replicate, if_pos (by omega)]
  refine ⟨hbot, ?_⟩
  intro j hj1 hj2
  obtain ⟨_, _, hkeep⟩ := propagateSeq_high_unchanged w h rounds _ f2 rfl rfl hrounds hseq
  rw [hkeep j hj1]
  exact hbot j (by omega) hj2

/-- Evaluation of one propagate round on the concrete 3x2 grid. -/
theorem fireW4_seq_eval : Fire.propagateSeq fireW4 roundsW4 = some fireW4' := by
  norm_num [Fire.propagateSeq, Fire.propagate, Fire.propagateAux, Fire.propStep,
    Fire.gridPairs, fireW4, fireW4', roundsW4, List.range_succ, max_def,
    intToNat_two, intToNat_three, intToNat_four]

/-- Witness for C4 on the concrete 3x2 grid with one propagate round. -/
theorem fire_bottom_row_witness :
    0 < 3 ∧ 0 < 2 ∧ (∀ r ∈ roundsW4, Fire.windAdmissible r.1) ∧
    Fire.new 3 2 (1 / 2) = some fireW4 ∧
    Fire.propagateSeq fireW4 roundsW4 = some fireW4' ∧
    ((∀ j, (2 - 1) * 3 ≤ j → j < 2 * 3 → fireW4.heat_buf.get? j = some 1) ∧
     (∀ j, (2 - 1) * 3 + 2 ≤ j → j < 2 * 3 → fireW4'.heat_buf.get? j = some 1)) := by
  have hr : ∀ r ∈ roundsW4, Fire.windAdmissible r.1 := by
    intro r hr
    rw [roundsW4, List.mem_singleton] at hr
    subst hr
    intro i
    constructor <;> norm_num
  exact ⟨by norm_num, by norm_num, hr, rfl, fireW4_seq_eval,
    fire_bottom_row 3 2 (1 / 2) roundsW4 fireW4 fireW4' (by norm_num) (by norm_num)
      hr rfl fireW4_seq_eval⟩

/-- Counterexample to C4 as stated: on a 2x2 grid one propagate call with
admissible draws (wind +2 on the second source cell, mean cooling)
overwrites the bottom-row cell at index 3, leaving 1/2 there instead of
1.0. -/
theorem fire_bottom_row_counterexample :
    Fire.windAdmissible windC4 ∧ Fire.coolAdmissible (1 / 2) coolC4 ∧
    Fire.new 2 2 (1 / 2) = some fireC4 ∧
    fireC4.propagate windC4 coolC4 = some fireC4' ∧
    fireC4'.heat_buf.get? 3 = some (1 / 2) ∧ ((1 : ℚ) / 2) ≠ 1 := by
  refine ⟨?_, ?_, rfl, fireC4_propagate_eval, rfl, by norm_num⟩
  · intro i
    by_cases h : i = 0 <;> simp [windC4, h]
  · intro i
    constructor <;> norm_num [coolC4]

end Art
